import Mathlib

/-!
Verification development for the studybuddy repository.

The definitions below are a shallow embedding of the AI-response
normalization pipeline in src/services/geminiService.ts (cleanJson,
repairJson, the JSON.parse cascade and the quiz sanitation step), of the
quiz validation in the quiz view component, and of the subject/material
move logic in src/App.tsx.  JavaScript strings are modelled as `List Char`;
JavaScript's trim, replace, indexOf/lastIndexOf and the grammar of
JSON.parse are modelled by explicit executable functions.  Machine floats
do not occur: the only numeric coercions the claims touch are modelled on
integer-valued data, which is noted where it matters.
-/

namespace StudyBuddy

/-- ASCII whitespace as recognised by the models of JavaScript's
`String.prototype.trim` and of the regex class `\s` (Unicode-only
whitespace such as NBSP is outside the model). -/
def isWs (c : Char) : Bool :=
  c == ' ' || c == '\t' || c == '\n' || c == '\r' || c == '\x0b' || c == '\x0c'

/-- Model of JavaScript `s.trim()`: drop leading and trailing whitespace. -/
def trim (s : List Char) : List Char :=
  ((s.dropWhile isWs).reverse.dropWhile isWs).reverse

/-- Model of `if (repaired.endsWith("\\")) repaired = repaired.slice(0, -1)`
in repairJson (src/services/geminiService.ts). -/
def dropTrailingBackslash (s : List Char) : List Char :=
  if s.getLast? = some '\\' then s.dropLast else s

/-- Model of `repaired.replace(/,\s*$/, '')` in repairJson: if the string
ends with a comma followed only by whitespace, remove that comma and the
whitespace after it; otherwise leave the string unchanged. -/
def stripTrailingComma (s : List Char) : List Char :=
  let r := s.reverse.dropWhile isWs
  if r.head? = some ',' then r.tail.reverse else s

/-- State of repairJson's character scan: the stack of open `{` / `[`
characters (head = top of stack), the in-string flag and the escape flag. -/
structure ScanState where
  stack : List Char
  inString : Bool
  escape : Bool
  deriving Repr, DecidableEq

/-- Initial scan state of repairJson: empty stack, outside any string. -/
def initState : ScanState := ⟨[], false, false⟩

/-- One iteration of repairJson's for-loop over the characters.  Follows the
source exactly: a quote not preceded by an escape toggles `inString`; the
escape flag records an unescaped backslash; brace handling is skipped while
inside a string; a closer pops only when it matches the top of the stack. -/
def scanStep (s : ScanState) (c : Char) : ScanState :=
  let inString := if c == '"' && !s.escape then !s.inString else s.inString
  let escape := c == '\\' && !s.escape
  if inString then ⟨s.stack, inString, escape⟩
  else if c == '{' || c == '[' then ⟨c :: s.stack, inString, escape⟩
  else if c == '}' then
    match s.stack with
    | '{' :: rest => ⟨rest, inString, escape⟩
    | _ => ⟨s.stack, inString, escape⟩
  else if c == ']' then
    match s.stack with
    | '[' :: rest => ⟨rest, inString, escape⟩
    | _ => ⟨s.stack, inString, escape⟩
  else ⟨s.stack, inString, escape⟩

/-- repairJson's scan of a whole string, left to right. -/
def scanList (s : ScanState) (cs : List Char) : ScanState :=
  cs.foldl scanStep s

/-- Model of repairJson's closing loop: pop the stack and append the closer
matching each remaining opener (`acc` holds the closers emitted so far). -/
def closeAll : List Char → List Char → List Char
  | [], acc => acc
  | c :: rest, acc =>
      closeAll rest (acc ++ (if c == '{' then ['}'] else if c == '[' then [']'] else []))

/-- Model of repairJson (src/services/geminiService.ts): trim, drop a
trailing backslash, drop a trailing comma, scan for unclosed braces and
brackets outside of quoted strings, and append the missing closers in
reverse order of their openers. -/
def repairJson (jsonStr : List Char) : List Char :=
  let r1 := trim jsonStr
  let r2 := dropTrailingBackslash r1
  let r3 := stripTrailingComma r2
  r3 ++ closeAll (scanList initState r3).stack []

/-- Strict variant of repairJson's scan, used only to state hypotheses:
it behaves like `scanStep` but fails (returns `none`) on a closing brace
or bracket that does not match the top of the stack outside of a string.
Any well-formed JSON document passes this scan ending with an empty stack,
since braces and brackets outside of quoted strings are well nested there. -/
def strictBad (s : ScanState) (c : Char) : Bool :=
  let inString := if c == '"' && !s.escape then !s.inString else s.inString
  !inString &&
    (c == '}' && !(s.stack.head? == some '{') ||
     c == ']' && !(s.stack.head? == some '['))

/-- Strict scan step: like `scanStep` but fails on a mismatched closer. -/
def strictStep (s : ScanState) (c : Char) : Option ScanState :=
  if strictBad s c then none else some (scanStep s c)

/-- Strict scan of a whole string. -/
def strictScanList (s : ScanState) : List Char → Option ScanState
  | [] => some s
  | c :: cs =>
      match strictStep s c with
      | none => none
      | some t => strictScanList t cs

example : repairJson ('{' :: '"' :: 'a' :: '"' :: ':' :: '[' :: '1' :: []) =
    ('{' :: '"' :: 'a' :: '"' :: ':' :: '[' :: '1' :: ']' :: '}' :: []) := by decide

example : repairJson ('{' :: ' ' :: []) = ('{' :: '}' :: []) := by decide

/-! Properties of the repair scan. -/

theorem scanList_append (s : ScanState) (a b : List Char) :
    scanList s (a ++ b) = scanList (scanList s a) b := by
  simp [scanList, List.foldl_append]

theorem strictScanList_append (s : ScanState) (a b : List Char) :
    strictScanList s (a ++ b) =
      (strictScanList s a).bind (fun t => strictScanList t b) := by
  induction a generalizing s with
  | nil => simp [strictScanList]
  | cons c cs ih =>
      simp only [List.cons_append, strictScanList]
      cases strictStep s c with
      | none => rfl
      | some t => exact ih t

theorem strictStep_sound {s t : ScanState} {c : Char}
    (h : strictStep s c = some t) : scanStep s c = t := by
  unfold strictStep at h
  split at h
  · exact absurd h (by simp)
  · exact Option.some.inj h

theorem strictScanList_sound (s t : ScanState) (cs : List Char)
    (h : strictScanList s cs = some t) : scanList s cs = t := by
  induction cs generalizing s with
  | nil => simpa [strictScanList, scanList] using h
  | cons c rest ih =>
      simp only [strictScanList] at h
      cases hs : strictStep s c with
      | none => rw [hs] at h; exact absurd h (by simp)
      | some u =>
          rw [hs] at h
          have : scanList s (c :: rest) = scanList u rest := by
            simp [scanList, strictStep_sound hs]
          rw [this]
          exact ih u h

theorem closeAll_acc (st : List Char) :
    ∀ acc, closeAll st acc = acc ++ closeAll st [] := by
  induction st with
  | nil => intro acc; simp [closeAll]
  | cons c rest ih =>
      intro acc
      simp only [closeAll, List.nil_append]
      rw [ih, ih (if c == '{' then ['}'] else if c == '[' then [']'] else [])]
      simp [List.append_assoc]

theorem closeAll_mem (st : List Char) : ∀ c ∈ closeAll st [], c = '}' ∨ c = ']' := by
  induction st with
  | nil => intro c hc; simp [closeAll] at hc
  | cons a rest ih =>
      intro c hc
      rw [closeAll, closeAll_acc, List.nil_append] at hc
      rcases List.mem_append.mp hc with h | h
      · split at h
        · left; simpa using h
        · split at h
          · right; simpa using h
          · simp at h
      · exact ih c h

theorem closers_determined : ∀ (v : List Char) (t fin : ScanState),
    (∀ c ∈ v, c = '}' ∨ c = ']') → t.inString = false →
    strictScanList t v = some fin → fin.stack = [] →
    v = closeAll t.stack [] := by
  intro v
  induction v with
  | nil =>
      intro t fin _ _ hscan hstack
      simp only [strictScanList, Option.some.injEq] at hscan
      rw [hscan, hstack]
      rfl
  | cons c v' ih =>
      intro t fin hv htin hscan hstack
      have hc : c = '}' ∨ c = ']' := hv c (List.mem_cons_self c v')
      simp only [strictScanList] at hscan
      cases hstep : strictStep t c with
      | none => simp [hstep] at hscan
      | some t' =>
          simp only [hstep] at hscan
          have hv' : ∀ d ∈ v', d = '}' ∨ d = ']' :=
            fun d hd => hv d (List.mem_cons_of_mem c hd)
          rcases hc with rfl | rfl
          · cases hstk : t.stack with
            | nil =>
                exfalso
                rw [strictStep] at hstep
                simp [strictBad, htin, hstk] at hstep
            | cons a rest =>
                by_cases ha : a = '{'
                · subst ha
                  have ht' : t' = ⟨rest, false, false⟩ := by
                    rw [strictStep] at hstep
                    simp [strictBad, htin, hstk, scanStep] at hstep
                    exact hstep.symm
                  subst ht'
                  have hrec : v' = closeAll rest [] := by
                    simpa using ih ⟨rest, false, false⟩ fin hv' rfl hscan hstack
                  rw [hrec]
                  conv_rhs => rw [closeAll, closeAll_acc]
                  simp
                · exfalso
                  rw [strictStep] at hstep
                  simp [strictBad, htin, hstk, ha] at hstep
          · cases hstk : t.stack with
            | nil =>
                exfalso
                rw [strictStep] at hstep
                simp [strictBad, htin, hstk] at hstep
            | cons a rest =>
                by_cases ha : a = '['
                · subst ha
                  have ht' : t' = ⟨rest, false, false⟩ := by
                    rw [strictStep] at hstep
                    simp [strictBad, htin, hstk, scanStep] at hstep
                    exact hstep.symm
                  subst ht'
                  have hrec : v' = closeAll rest [] := by
                    simpa using ih ⟨rest, false, false⟩ fin hv' rfl hscan hstack
                  rw [hrec]
                  conv_rhs => rw [closeAll, closeAll_acc]
                  simp
                · exfalso
                  rw [strictStep] at hstep
                  simp [strictBad, htin, hstk, ha] at hstep

theorem head?_dropWhile_false (p : Char → Bool) (l : List Char) :
    ∀ c, (l.dropWhile p).head? = some c → p c = false := by
  induction l with
  | nil => intro c h; simp [List.dropWhile] at h
  | cons a t ih =>
      intro c h
      rw [List.dropWhile_cons] at h
      by_cases hp : p a
      · rw [if_pos hp] at h; exact ih c h
      · rw [if_neg hp] at h
        simp only [List.head?_cons, Option.some.injEq] at h
        rw [← h]
        simpa using hp

theorem dropWhile_eq_self_of_head (p : Char → Bool) (l : List Char)
    (h : ∀ c, l.head? = some c → p c = false) : l.dropWhile p = l := by
  cases l with
  | nil => rfl
  | cons a t =>
      rw [List.dropWhile_cons, if_neg]
      simp [h a rfl]

theorem trim_reverse_dropWhile (s : List Char) :
    (trim s).reverse.dropWhile isWs = (trim s).reverse := by
  unfold trim
  rw [List.reverse_reverse]
  exact dropWhile_eq_self_of_head isWs _ (head?_dropWhile_false isWs _)

theorem dropTrailingBackslash_eq (s : List Char) (h : s.getLast? ≠ some '\\') :
    dropTrailingBackslash s = s := by
  rw [dropTrailingBackslash, if_neg h]

theorem stripTrailingComma_trim (s : List Char) (h : (trim s).getLast? ≠ some ',') :
    stripTrailingComma (trim s) = trim s := by
  simp only [stripTrailingComma, trim_reverse_dropWhile]
  rw [List.head?_reverse, if_neg h]

/-- After the trailing-comma and trailing-backslash preprocessing turns out
to be the identity, repairJson is the trimmed input followed by the closers
of the openers left on the scan stack. -/
theorem repairJson_eq (s : List Char)
    (hc : (trim s).getLast? ≠ some ',') (hb : (trim s).getLast? ≠ some '\\') :
    repairJson s = trim s ++ closeAll (scanList initState (trim s)).stack [] := by
  simp only [repairJson]
  rw [dropTrailingBackslash_eq _ hb, stripTrailingComma_trim _ hc]

/-- C9: for every input string whose trimmed form ends in neither a
backslash nor a comma, repairJson returns the trimmed form of the input
followed only by appended `}` and `]` characters (no interior character is
changed or removed); and if the trimmed form already has balanced
braces/brackets outside quoted strings (the strict well-nestedness scan
succeeds with an empty stack), repairJson returns the trimmed form
unchanged. -/
theorem repairJson_appends_only_closers (s : List Char)
    (hc : (trim s).getLast? ≠ some ',') (hb : (trim s).getLast? ≠ some '\\') :
    ∃ w, repairJson s = trim s ++ w ∧ (∀ c ∈ w, c = '}' ∨ c = ']') ∧
      ((∃ t, strictScanList initState (trim s) = some t ∧ t.stack = []) → w = []) := by
  refine ⟨closeAll (scanList initState (trim s)).stack [], repairJson_eq s hc hb,
    closeAll_mem _, ?_⟩
  rintro ⟨t, hscan, hstack⟩
  rw [strictScanList_sound _ _ _ hscan, hstack]
  rfl

/-- Witness for the C9 theorem at the concrete input `[{"a"` (with a
trailing space, so that trimming is visible): repairJson appends only
closers after the trimmed input. -/
theorem repairJson_appends_only_closers_witness :
    ∃ w, repairJson ('[' :: '{' :: '"' :: 'a' :: '"' :: ' ' :: []) =
        trim ('[' :: '{' :: '"' :: 'a' :: '"' :: ' ' :: []) ++ w ∧
      (∀ c ∈ w, c = '}' ∨ c = ']') ∧
      ((∃ t, strictScanList initState
          (trim ('[' :: '{' :: '"' :: 'a' :: '"' :: ' ' :: [])) = some t ∧
          t.stack = []) → w = []) :=
  repairJson_appends_only_closers _ (by decide) (by decide)

/-- C3 counterexample: the well-formed document `{ }` truncated by dropping
its trailing `}` gives the input `{ ` (two characters, the truncation point
not inside a string, nesting depth 1).  repairJson returns `{}`, which is
not the input with the missing closer appended (that would be the original
document `{ }`): the trim step removed the space before the truncation
point, so the output differs from the well-formed version as a string. -/
theorem repairJson_truncation_counterexample :
    repairJson ('{' :: ' ' :: []) = ('{' :: '}' :: []) ∧
      ('{' :: '}' :: []) ≠ ('{' :: ' ' :: []) ++ ('}' :: []) :=
  ⟨by decide, by decide⟩

/-- C3 (amended): take a well-formed JSON document `u ++ v` truncated by
dropping its trailing closers `v` (each a `}` or `]`), with the truncation
point not inside a quoted string, the whole document passing the strict
well-nestedness scan with an empty final stack, and the truncated input `u`
already trimmed and not ending in a comma or backslash (as at any
truncation point of well-formed JSON that is not preceded by whitespace).
Then repairJson returns exactly the original document: the input with the
missing closing characters appended in reverse order of their matching
openers. -/
theorem repairJson_restores_truncation (u v : List Char)
    (htrim : trim u = u)
    (hc : u.getLast? ≠ some ',') (hb : u.getLast? ≠ some '\\')
    (hv : ∀ c ∈ v, c = '}' ∨ c = ']')
    (hnostr : (scanList initState u).inString = false)
    (hbal : ∃ e, strictScanList initState (u ++ v) = some ⟨[], false, e⟩) :
    repairJson u = u ++ v := by
  obtain ⟨e, hbal⟩ := hbal
  rw [strictScanList_append] at hbal
  cases h1 : strictScanList initState u with
  | none => rw [h1] at hbal; simp at hbal
  | some t =>
      rw [h1] at hbal
      simp only [Option.some_bind] at hbal
      have hsc : scanList initState u = t := strictScanList_sound _ _ _ h1
      have htin : t.inString = false := by rw [← hsc]; exact hnostr
      have hveq : v = closeAll t.stack [] :=
        closers_determined v t ⟨[], false, e⟩ hv htin hbal rfl
      have h2 : repairJson u = trim u ++ closeAll (scanList initState (trim u)).stack [] :=
        repairJson_eq u (by rw [htrim]; exact hc) (by rw [htrim]; exact hb)
      rw [htrim, hsc] at h2
      rw [h2, ← hveq]

/-- Witness for the C3 theorem: the document `{"a":[1]}` truncated to
`{"a":[1` is repaired back to the original document. -/
theorem repairJson_restores_truncation_witness :
    repairJson ('{' :: '"' :: 'a' :: '"' :: ':' :: '[' :: '1' :: []) =
      ('{' :: '"' :: 'a' :: '"' :: ':' :: '[' :: '1' :: []) ++ (']' :: '}' :: []) :=
  repairJson_restores_truncation _ _ (by decide) (by decide) (by decide)
    (by decide) (by decide) ⟨false, by decide⟩

/-! Model of cleanJson (src/services/geminiService.ts). -/

/-- Model of JavaScript `text.replace(pat, "")` with a global literal
pattern: remove the non-overlapping occurrences of `pat`, scanning left to
right and resuming after each removed occurrence. -/
def replaceAll (pat : List Char) : List Char → List Char
  | [] => []
  | c :: rest =>
      if h : pat ≠ [] ∧ pat <+: (c :: rest) then
        replaceAll pat ((c :: rest).drop pat.length)
      else
        c :: replaceAll pat rest
termination_by s => s.length
decreasing_by
  · have hp : 0 < pat.length := List.length_pos.mpr h.1
    simp only [List.length_drop, List.length_cons]
    omega
  · simp only [List.length_cons]
    omega

/-- Model of JavaScript `s.indexOf(c)` (`none` for −1). -/
def idxOfChar (c : Char) : List Char → Option Nat
  | [] => none
  | a :: rest => if a == c then some 0 else (idxOfChar c rest).map (· + 1)

/-- Model of JavaScript `s.lastIndexOf(c)` (`none` for −1). -/
def lastIdxOfChar (c : Char) (s : List Char) : Option Nat :=
  (idxOfChar c s.reverse).map (fun j => s.length - 1 - j)

/-- The characters of the fence marker regex `/```json/g`. -/
def fenceJson : List Char := '`' :: '`' :: '`' :: 'j' :: 's' :: 'o' :: 'n' :: []

/-- The characters of the fence marker regex `/```/g`. -/
def fencePlain : List Char := '`' :: '`' :: '`' :: []

/-- Model of cleanJson (src/services/geminiService.ts): strip the ```json
and ``` fence markers; if there is no `{`, return the stripped text; else
slice from the first `{` through the last `}` when the latter comes after
the former, and otherwise from the first `{` to the end. -/
def cleanJson (text : List Char) : List Char :=
  let cleaned := replaceAll fencePlain (replaceAll fenceJson text)
  match idxOfChar '{' cleaned with
  | none => cleaned
  | some firstBrace =>
      match lastIdxOfChar '}' cleaned with
      | some lastBrace =>
          if firstBrace < lastBrace then
            (cleaned.drop firstBrace).take (lastBrace + 1 - firstBrace)
          else cleaned.drop firstBrace
      | none => cleaned.drop firstBrace

theorem replaceAll_nil_pat (s : List Char) : replaceAll [] s = s := by
  induction s with
  | nil => simp [replaceAll]
  | cons c rest ih => rw [replaceAll, dif_neg (by simp)]; rw [ih]

theorem replaceAll_sublist_aux (pat : List Char) :
    ∀ n (s : List Char), s.length ≤ n → (replaceAll pat s).Sublist s := by
  intro n
  induction n with
  | zero =>
      intro s hs
      have : s = [] := List.eq_nil_of_length_eq_zero (Nat.le_zero.mp hs)
      subst this
      simp [replaceAll]
  | succ n ih =>
      intro s hs
      cases s with
      | nil => simp [replaceAll]
      | cons c rest =>
          rw [replaceAll]
          split
          · rename_i h
            have hp : 0 < pat.length := List.length_pos.mpr h.1
            have h1 : (replaceAll pat ((c :: rest).drop pat.length)).Sublist
                ((c :: rest).drop pat.length) := by
              apply ih
              simp only [List.length_drop, List.length_cons]
              simp only [List.length_cons] at hs
              omega
            exact h1.trans ((List.drop_suffix _ _).sublist)
          · exact (ih rest (by simpa using Nat.le_of_succ_le_succ hs)).cons₂ c

theorem replaceAll_sublist (pat s : List Char) : (replaceAll pat s).Sublist s :=
  replaceAll_sublist_aux pat s.length s le_rfl

theorem not_mem_replaceAll (pat s : List Char) (c : Char) (h : c ∉ s) :
    c ∉ replaceAll pat s :=
  fun hc => h ((replaceAll_sublist pat s).subset hc)

/-- If no occurrence of `pat` starting inside `xs` runs past the boundary
into `ys`, the global replacement distributes over the concatenation. -/
theorem replaceAll_append_aux (pat : List Char) :
    ∀ n (xs ys : List Char), xs.length ≤ n →
    (∀ t, t <:+ xs → t ≠ [] → pat <+: (t ++ ys) → pat.length ≤ t.length) →
    replaceAll pat (xs ++ ys) = replaceAll pat xs ++ replaceAll pat ys := by
  intro n
  induction n with
  | zero =>
      intro xs ys hlen _
      have : xs = [] := List.eq_nil_of_length_eq_zero (Nat.le_zero.mp hlen)
      subst this
      simp [replaceAll]
  | succ n ih =>
      intro xs ys hlen hcross
      cases xs with
      | nil => simp [replaceAll]
      | cons c rest =>
          by_cases hpat : pat = []
          · subst hpat; simp [replaceAll_nil_pat]
          by_cases hpre : pat <+: ((c :: rest) ++ ys)
          · have hlenp : pat.length ≤ (c :: rest).length :=
              hcross (c :: rest) (List.suffix_refl _) (by simp) hpre
            have hpre2 : pat <+: (c :: rest) := by
              have h1 : pat = ((c :: rest) ++ ys).take pat.length :=
                List.prefix_iff_eq_take.mp hpre
              rw [List.take_append_of_le_length hlenp] at h1
              exact List.prefix_iff_eq_take.mpr h1
            have hstep : replaceAll pat ((c :: rest) ++ ys) =
                replaceAll pat (((c :: rest) ++ ys).drop pat.length) := by
              rw [show (c :: rest) ++ ys = c :: (rest ++ ys) from rfl, replaceAll,
                dif_pos ⟨hpat, hpre⟩]
            have hstep2 : replaceAll pat (c :: rest) =
                replaceAll pat ((c :: rest).drop pat.length) := by
              rw [replaceAll, dif_pos ⟨hpat, hpre2⟩]
            rw [hstep, hstep2, List.drop_append_of_le_length hlenp]
            apply ih
            · have hp : 0 < pat.length := List.length_pos.mpr hpat
              simp only [List.length_drop, List.length_cons]
              simp only [List.length_cons] at hlen
              omega
            · intro t ht htne htp
              exact hcross t (ht.trans (List.drop_suffix _ _)) htne htp
          · have hpre2 : ¬ pat <+: (c :: rest) := by
              intro hp
              exact hpre (hp.trans (List.prefix_append _ _))
            have hstep : replaceAll pat ((c :: rest) ++ ys) =
                c :: replaceAll pat (rest ++ ys) := by
              rw [show (c :: rest) ++ ys = c :: (rest ++ ys) from rfl, replaceAll,
                dif_neg (fun hcon => hpre (by simpa using hcon.2))]
            have hstep2 : replaceAll pat (c :: rest) = c :: replaceAll pat rest := by
              rw [replaceAll, dif_neg (by simp [hpre2])]
            rw [hstep, hstep2]
            have : replaceAll pat (rest ++ ys) =
                replaceAll pat rest ++ replaceAll pat ys := by
              apply ih
              · simp only [List.length_cons] at hlen; omega
              · intro t ht htne htp
                exact hcross t (ht.trans (List.suffix_cons c rest)) htne htp
            rw [this]
            rfl

theorem replaceAll_append (pat xs ys : List Char)
    (hcross : ∀ t, t <:+ xs → t ≠ [] → pat <+: (t ++ ys) → pat.length ≤ t.length) :
    replaceAll pat (xs ++ ys) = replaceAll pat xs ++ replaceAll pat ys :=
  replaceAll_append_aux pat xs.length xs ys le_rfl hcross

theorem idxOfChar_not_mem (c : Char) (s : List Char) (h : c ∉ s) :
    idxOfChar c s = none := by
  induction s with
  | nil => rfl
  | cons a rest ih =>
      have ha : ¬ a == c := by
        intro hac
        have : a = c := by simpa using hac
        exact h (this ▸ List.mem_cons_self a rest)
      rw [idxOfChar, if_neg ha, ih (fun hm => h (List.mem_cons_of_mem a hm))]
      rfl

theorem idxOfChar_append_not_mem (c : Char) (a b : List Char) (h : c ∉ a) :
    idxOfChar c (a ++ b) = (idxOfChar c b).map (· + a.length) := by
  induction a with
  | nil =>
      simp only [List.nil_append, List.length_nil]
      cases idxOfChar c b <;> simp
  | cons x rest ih =>
      have hx : ¬ x == c := by
        intro hac
        have : x = c := by simpa using hac
        exact h (this ▸ List.mem_cons_self x rest)
      have h2 : c ∉ rest := fun hm => h (List.mem_cons_of_mem x hm)
      rw [List.cons_append, idxOfChar, if_neg hx, ih h2]
      cases idxOfChar c b <;> simp <;> omega

theorem idxOfChar_cons_self (c : Char) (rest : List Char) :
    idxOfChar c (c :: rest) = some 0 := by
  rw [idxOfChar, if_pos (by simp)]

/-- A literal-pattern occurrence that starts inside `t` cannot cross into a
continuation starting with a character that is not in the pattern. -/
theorem no_cross_head (pat xs : List Char) (d : Char) (ys2 : List Char)
    (hd : d ∉ pat) :
    ∀ t, t <:+ xs → t ≠ [] → pat <+: (t ++ (d :: ys2)) → pat.length ≤ t.length := by
  intro t _ _ hp
  by_contra hlt
  push_neg at hlt
  have h1 : pat = (t ++ (d :: ys2)).take pat.length := List.prefix_iff_eq_take.mp hp
  have h2 : pat[t.length]? = (t ++ (d :: ys2))[t.length]? := by
    conv_lhs => rw [h1]
    rw [List.getElem?_take]
    simp [hlt]
  have h3 : (t ++ (d :: ys2))[t.length]? = some d := by
    rw [List.getElem?_append_right (le_refl t.length)]
    simp
  exact hd (List.getElem?_mem (h2.trans h3))

/-- A literal-pattern occurrence cannot start inside a segment that does not
contain the pattern's first character. -/
theorem no_cross_no_start (pat xs ys : List Char) (d : Char)
    (hd : pat.head? = some d) (hx : d ∉ xs) :
    ∀ t, t <:+ xs → t ≠ [] → pat <+: (t ++ ys) → pat.length ≤ t.length := by
  intro t ht htne hp
  exfalso
  cases t with
  | nil => exact htne rfl
  | cons a t2 =>
      cases pat with
      | nil => simp at hd
      | cons p pr =>
          have hpd : p = d := by simpa using hd
          have hpa : p = a := (List.cons_prefix_cons.mp (by simpa using hp)).1
          have ha : a ∈ xs := ht.subset (List.mem_cons_self a t2)
          rw [← hpa, hpd] at ha
          exact hx ha

theorem replaceAll_no_head (pat : List Char) (d : Char) (hd : pat.head? = some d) :
    ∀ s, d ∉ s → replaceAll pat s = s := by
  intro s
  induction s with
  | nil => intro _; simp [replaceAll]
  | cons c rest ih =>
      intro h
      have hnp : ¬ (pat ≠ [] ∧ pat <+: (c :: rest)) := by
        rintro ⟨hne, hp⟩
        cases pat with
        | nil => exact hne rfl
        | cons p pr =>
            have hpd : p = d := by simpa using hd
            have hpc : p = c := (List.cons_prefix_cons.mp hp).1
            have : d = c := by rw [← hpd, hpc]
            exact h (by rw [this]; exact List.mem_cons_self c rest)
      rw [replaceAll, dif_neg hnp, ih (fun hm => h (List.mem_cons_of_mem c hm))]

/-- Stripping a fence marker from `pre ++ object ++ post` does not touch the
object, provided the object contains no backtick. -/
theorem replaceAll_fence_split (pat pre mid post : List Char)
    (hpat_brace : '{' ∉ pat) (hpat_head : pat.head? = some '`')
    (hmid : '`' ∉ mid) :
    replaceAll pat (pre ++ (('{' :: (mid ++ ['}'])) ++ post)) =
      replaceAll pat pre ++ (('{' :: (mid ++ ['}'])) ++ replaceAll pat post) := by
  have hobj : '`' ∉ ('{' :: (mid ++ ['}'])) := by
    simp only [List.mem_cons, List.mem_append, List.mem_singleton]
    push_neg
    exact ⟨by decide, hmid, by decide⟩
  rw [replaceAll_append pat pre _
    (by
      have := no_cross_head pat pre '{' ((mid ++ ['}']) ++ post) hpat_brace
      intro t ht htne hp
      exact this t ht htne (by simpa using hp))]
  rw [replaceAll_append pat ('{' :: (mid ++ ['}'])) post
    (no_cross_no_start pat ('{' :: (mid ++ ['}'])) post '`' hpat_head hobj)]
  rw [replaceAll_no_head pat '`' hpat_head _ hobj]

/-- C4 counterexample: the valid JSON object `{}` followed by the trailing
prose `}`.  cleanJson slices through the last `}` of the prose, so it
returns the whole three-character string instead of exactly the two-byte
object, refuting the claim for trailing prose that contains `}`. -/
theorem cleanJson_counterexample :
    cleanJson ('{' :: '}' :: '}' :: []) = ('{' :: '}' :: '}' :: []) ∧
      ('{' :: '}' :: '}' :: []) ≠ ('{' :: '}' :: []) := by
  constructor
  · simp +decide [cleanJson, replaceAll, fenceJson, fencePlain, idxOfChar, lastIdxOfChar]
  · decide

/-- C4 (amended): for input text of the shape `pre ++ obj ++ post` where
`obj` is a brace-delimited object, the leading text `pre` contains no `{`
(true of the ```json fence markers), the object's interior contains no
backtick, and the trailing prose `post` contains no `}`, cleanJson returns
exactly the object: it strips the fences and slices from the object's
opening brace to its closing brace. -/
theorem cleanJson_extracts (pre mid post : List Char)
    (hpre : '{' ∉ pre) (hmid : '`' ∉ mid) (hpost : '}' ∉ post) :
    cleanJson ((pre ++ ('{' :: (mid ++ ['}']))) ++ post) = '{' :: (mid ++ ['}']) := by
  have hassoc : (pre ++ ('{' :: (mid ++ ['}']))) ++ post
      = pre ++ (('{' :: (mid ++ ['}'])) ++ post) := List.append_assoc _ _ _
  have h1 := replaceAll_fence_split fenceJson pre mid post (by decide) (by decide) hmid
  have h2 := replaceAll_fence_split fencePlain (replaceAll fenceJson pre) mid
      (replaceAll fenceJson post) (by decide) (by decide) hmid
  have hpre2 : '{' ∉ replaceAll fencePlain (replaceAll fenceJson pre) :=
    not_mem_replaceAll _ _ _ (not_mem_replaceAll _ _ _ hpre)
  have hpost2 : '}' ∉ replaceAll fencePlain (replaceAll fenceJson post) :=
    not_mem_replaceAll _ _ _ (not_mem_replaceAll _ _ _ hpost)
  set pre2 := replaceAll fencePlain (replaceAll fenceJson pre) with hpre2def
  set post2 := replaceAll fencePlain (replaceAll fenceJson post) with hpost2def
  simp only [cleanJson]
  rw [hassoc, h1, h2]
  have hfb : idxOfChar '{' (pre2 ++ (('{' :: (mid ++ ['}'])) ++ post2))
      = some pre2.length := by
    rw [idxOfChar_append_not_mem _ _ _ hpre2,
      show ('{' :: (mid ++ ['}'])) ++ post2 = '{' :: ((mid ++ ['}']) ++ post2) from rfl,
      idxOfChar_cons_self]
    simp
  have hrev : (pre2 ++ (('{' :: (mid ++ ['}'])) ++ post2)).reverse
      = post2.reverse ++ ('}' :: (mid.reverse ++ ('{' :: pre2.reverse))) := by
    simp [List.reverse_append, List.reverse_cons, List.append_assoc]
  have hlb : lastIdxOfChar '}' (pre2 ++ (('{' :: (mid ++ ['}'])) ++ post2))
      = some (pre2.length + mid.length + 1) := by
    rw [lastIdxOfChar, hrev,
      idxOfChar_append_not_mem _ _ _ (by simpa using hpost2),
      idxOfChar_cons_self]
    simp only [Option.map_some, Option.some.injEq, List.length_append,
      List.length_reverse, List.length_cons, List.length_append]
    simp
    omega
  simp only [hfb, hlb]
  rw [if_pos (by omega)]
  rw [List.drop_left]
  have harith : pre2.length + mid.length + 1 + 1 - pre2.length = mid.length + 2 := by
    omega
  rw [harith,
    show mid.length + 2 = ('{' :: (mid ++ ['}'])).length from by simp,
    List.take_left]

/-- Witness for the C4 theorem: a fenced object followed by prose. -/
theorem cleanJson_extracts_witness :
    cleanJson (((('`' :: '`' :: '`' :: 'j' :: 's' :: 'o' :: 'n' :: []) ++
        ('{' :: (('"' :: 'a' :: '"' :: ':' :: '1' :: []) ++ ['}']))) ++
        ('`' :: '`' :: '`' :: ' ' :: 'o' :: 'k' :: []))) =
      '{' :: (('"' :: 'a' :: '"' :: ':' :: '1' :: []) ++ ['}']) :=
  cleanJson_extracts _ _ _ (by decide) (by decide) (by decide)

/-! Model of JSON values and of the grammar accepted by JSON.parse. -/

/-- JSON values as produced by JSON.parse.  Numbers keep their source
lexeme, since machine floats are outside the model; strings are decoded. -/
inductive Json where
  | null
  | bool (b : Bool)
  | num (lexeme : String)
  | str (s : String)
  | arr (elements : List Json)
  | obj (fields : List (String × Json))
  deriving Repr

/-- JSON source whitespace (space, tab, newline, carriage return). -/
def isJsonWs (c : Char) : Bool := c == ' ' || c == '\t' || c == '\n' || c == '\r'

/-- Skip JSON source whitespace. -/
def skipWs (s : List Char) : List Char := s.dropWhile isJsonWs

/-- Value of one hexadecimal digit. -/
def hexVal (c : Char) : Option Nat :=
  if '0' ≤ c ∧ c ≤ '9' then some (c.toNat - '0'.toNat)
  else if 'a' ≤ c ∧ c ≤ 'f' then some (c.toNat - 'a'.toNat + 10)
  else if 'A' ≤ c ∧ c ≤ 'F' then some (c.toNat - 'A'.toNat + 10)
  else none

/-- Parse the body of a JSON string after the opening quote, decoding the
escapes as JSON.parse does; `acc` holds the decoded characters in reverse.
A lone UTF-16 surrogate escape cannot be represented in `Char` and is
modelled by `Char.ofNat`'s default value. -/
def parseStringBody : List Char → List Char → Option (String × List Char)
  | [], _ => none
  | '"' :: rest, acc => some (String.mk acc.reverse, rest)
  | '\\' :: '"' :: r, acc => parseStringBody r ('"' :: acc)
  | '\\' :: '\\' :: r, acc => parseStringBody r ('\\' :: acc)
  | '\\' :: '/' :: r, acc => parseStringBody r ('/' :: acc)
  | '\\' :: 'b' :: r, acc => parseStringBody r ('\x08' :: acc)
  | '\\' :: 'f' :: r, acc => parseStringBody r ('\x0c' :: acc)
  | '\\' :: 'n' :: r, acc => parseStringBody r ('\n' :: acc)
  | '\\' :: 'r' :: r, acc => parseStringBody r ('\r' :: acc)
  | '\\' :: 't' :: r, acc => parseStringBody r ('\t' :: acc)
  | '\\' :: 'u' :: h1 :: h2 :: h3 :: h4 :: r, acc =>
      match hexVal h1, hexVal h2, hexVal h3, hexVal h4 with
      | some a, some b, some c, some d =>
          parseStringBody r (Char.ofNat (((a * 16 + b) * 16 + c) * 16 + d) :: acc)
      | _, _, _, _ => none
  | '\\' :: _, _ => none
  | c :: r, acc => if c.toNat < 32 then none else parseStringBody r (c :: acc)

/-- Split off a maximal run of decimal digits. -/
def parseDigits (s : List Char) : List Char × List Char :=
  (s.takeWhile Char.isDigit, s.dropWhile Char.isDigit)

/-- Parse a JSON number, returning its lexeme.  The scan stops at the first
character that cannot continue the number; malformed numbers such as a bare
minus sign are rejected here, and stray continuations (as in `01` or `1e`)
are rejected by the caller's check of what follows, as in JSON.parse. -/
def parseNumber (s : List Char) : Option (Json × List Char) :=
  let signSplit : List Char × List Char :=
    match s with
    | '-' :: r => (['-'], r)
    | _ => ([], s)
  let sign := signSplit.1
  let s1 := signSplit.2
  match s1 with
  | [] => none
  | c :: _ =>
      if ¬ c.isDigit then none
      else
        let ipSplit := if c = '0' then ((['0'] : List Char), s1.drop 1) else parseDigits s1
        let ip := ipSplit.1
        let s2 := ipSplit.2
        let fpSplit : List Char × List Char :=
          match s2 with
          | '.' :: r =>
              match parseDigits r with
              | ([], _) => ([], s2)
              | (ds, r2) => ('.' :: ds, r2)
          | _ => ([], s2)
        let fp := fpSplit.1
        let s3 := fpSplit.2
        let epSplit : List Char × List Char :=
          match s3 with
          | e :: r =>
              if e = 'e' ∨ e = 'E' then
                let esSplit : List Char × List Char :=
                  match r with
                  | '+' :: rr => (['+'], rr)
                  | '-' :: rr => (['-'], rr)
                  | _ => ([], r)
                match parseDigits esSplit.2 with
                | ([], _) => ([], s3)
                | (ds, r3) => (e :: (esSplit.1 ++ ds), r3)
              else ([], s3)
          | [] => ([], s3)
        some (Json.num (String.mk (sign ++ ip ++ fp ++ epSplit.1)), epSplit.2)

mutual

/-- Parse a JSON value at the given position (leading whitespace already
skipped).  `fuel` only bounds the recursion depth; `jsonParse` picks it
large enough for the whole input. -/
def parseValue : Nat → List Char → Option (Json × List Char)
  | 0, _ => none
  | fuel + 1, s =>
      match s with
      | 'n' :: 'u' :: 'l' :: 'l' :: rest => some (Json.null, rest)
      | 't' :: 'r' :: 'u' :: 'e' :: rest => some (Json.bool true, rest)
      | 'f' :: 'a' :: 'l' :: 's' :: 'e' :: rest => some (Json.bool false, rest)
      | '"' :: rest =>
          match parseStringBody rest [] with
          | some (st, r) => some (Json.str st, r)
          | none => none
      | '{' :: rest =>
          match skipWs rest with
          | '}' :: r => some (Json.obj [], r)
          | r => parseMembers fuel r
      | '[' :: rest =>
          match skipWs rest with
          | ']' :: r => some (Json.arr [], r)
          | r => parseItems fuel r
      | _ => parseNumber s

/-- Parse the comma-separated items of a non-empty array, up to and
including the closing bracket. -/
def parseItems : Nat → List Char → Option (Json × List Char)
  | 0, _ => none
  | fuel + 1, s =>
      match parseValue fuel s with
      | none => none
      | some (v, rest) =>
          match skipWs rest with
          | ',' :: r =>
              match parseItems fuel (skipWs r) with
              | some (Json.arr vs, r2) => some (Json.arr (v :: vs), r2)
              | _ => none
          | ']' :: r => some (Json.arr [v], r)
          | _ => none

/-- Parse the comma-separated members of a non-empty object, up to and
including the closing brace. -/
def parseMembers : Nat → List Char → Option (Json × List Char)
  | 0, _ => none
  | fuel + 1, s =>
      match s with
      | '"' :: rest =>
          match parseStringBody rest [] with
          | none => none
          | some (k, r1) =>
              match skipWs r1 with
              | ':' :: r2 =>
                  match parseValue fuel (skipWs r2) with
                  | none => none
                  | some (v, r3) =>
                      match skipWs r3 with
                      | ',' :: r4 =>
                          match parseMembers fuel (skipWs r4) with
                          | some (Json.obj kvs, r5) => some (Json.obj ((k, v) :: kvs), r5)
                          | _ => none
                      | '}' :: r4 => some (Json.obj [(k, v)], r4)
                      | _ => none
              | _ => none
      | _ => none

end

/-- Model of JSON.parse: one value surrounded by whitespace, nothing left
over.  The fuel bound exceeds the recursion depth of any input. -/
def jsonParse (s : List Char) : Option Json :=
  match parseValue (2 * s.length + 4) (skipWs s) with
  | some (v, rest) => if skipWs rest = [] then some v else none
  | none => none

example : jsonParse ('n' :: 'u' :: 'l' :: 'l' :: []) = some Json.null := rfl

example : jsonParse ('{' :: '"' :: 'a' :: '"' :: ':' :: '1' :: '}' :: []) =
    some (Json.obj [("a", Json.num "1")]) := rfl

example : jsonParse ('[' :: ' ' :: '1' :: ',' :: ' ' :: 't' :: 'r' :: 'u' :: 'e' :: ']' :: []) =
    some (Json.arr [Json.num "1", Json.bool true]) := rfl

/-- Field lookup on a parsed JSON value: `none` models undefined (missing
field, or a primitive receiver without fields).  JSON.parse keeps the last
duplicate key, hence the lookup takes the last matching binding. -/
def jget (j : Json) (key : String) : Option Json :=
  match j with
  | Json.obj fields =>
      ((fields.filter (fun kv => kv.1 = key)).getLast?).map (fun kv => kv.2)
  | _ => none

/-- Model of a JavaScript property read `data.key`: reading a property of
`null` throws a TypeError (`Except.error ()`); reading a missing property
of an object or of a boxed primitive yields undefined (`Except.ok none`). -/
def jsMember (j : Json) (key : String) : Except Unit (Option Json) :=
  match j with
  | Json.null => Except.error ()
  | _ => Except.ok (jget j key)

/-- The parse stages of the normalization cascade in analyzeLectureContent
(src/services/geminiService.ts): clean the text, attempt a strict parse,
then attempt parsing the repaired text.  `none` means both parses failed
and the regex fallback extraction would run instead. -/
def parseCascade (text : List Char) : Option Json :=
  let cleaned := cleanJson text
  match jsonParse cleaned with
  | some v => some v
  | none => jsonParse (repairJson cleaned)

/-- C5 (code bug): for the raw model response text `null`, cleanJson leaves
the text unchanged (it has no brace), the cascade's strict-parse stage
accepts it and yields JSON null — which is not a LectureAnalysis object —
and the subsequent `data.title` read in analyzeLectureContent throws a
TypeError, so the call fails for this malformed input instead of producing
a best-effort analysis as the contract demands. -/
theorem cascade_null_not_analysis :
    parseCascade ('n' :: 'u' :: 'l' :: 'l' :: []) = some Json.null ∧
      jsMember Json.null "title" = Except.error () := by
  constructor
  · have h1 : cleanJson ('n' :: 'u' :: 'l' :: 'l' :: []) =
        ('n' :: 'u' :: 'l' :: 'l' :: []) := by
      simp +decide [cleanJson, replaceAll, fenceJson, fencePlain, idxOfChar]
    simp only [parseCascade, h1]
    rfl
  · rfl

/-! Model of the quiz sanitation in analyzeLectureContent and of the quiz
view's validation and safe-index computation. -/

/-- Zero test for a JSON number lexeme: a valid JSON number denotes zero
exactly when every digit of its mantissa (the part before any exponent)
is `0`. -/
def numLexemeIsZero (s : String) : Bool :=
  (s.toList.takeWhile (fun c => !(c == 'e' || c == 'E'))).all
    (fun c => c == '0' || c == '.' || c == '-')

/-- JavaScript truthiness of a parsed JSON value. -/
def truthy : Json → Bool
  | Json.null => false
  | Json.bool b => b
  | Json.num s => ! numLexemeIsZero s
  | Json.str s => ! (s == "")
  | Json.arr _ => true
  | Json.obj _ => true

/-- Truthiness of a possibly-undefined value (undefined is falsy). -/
def truthyOpt (v : Option Json) : Bool :=
  match v with
  | some j => truthy j
  | none => false

/-- Model of JavaScript `v || d`: the value when truthy, else the default. -/
def jsOr (v : Option Json) (d : Json) : Json :=
  match v with
  | some j => if truthy j then j else d
  | none => d

/-- The sanitized quiz record built by the map in analyzeLectureContent. -/
structure SanQuiz where
  question : Json
  options : Json
  correctAnswerIndex : Json
  explanation : Json
  deriving Repr

/-- The two-option placeholder `["True", "False"]`. -/
def placeholderOptions : Json := Json.arr [Json.str "True", Json.str "False"]

/-- The record the sanitation callback builds once the four property reads
have succeeded, from the read values (`none` is undefined): default a falsy
question, replace options that are not an array of length at least 2 with
the placeholder, keep a correctAnswerIndex exactly when its runtime type is
number (JSON.parse produces no NaN, so the number cases are the `Json.num`
values), and default a falsy explanation. -/
def buildSanQuiz (qq qo qc qe : Option Json) : SanQuiz where
  question := jsOr qq (Json.str "Untitled Question")
  options :=
    match qo with
    | some (Json.arr l) => if 2 ≤ l.length then Json.arr l else placeholderOptions
    | _ => placeholderOptions
  correctAnswerIndex :=
    match qc with
    | some (Json.num s) => Json.num s
    | _ => Json.num "0"
  explanation := jsOr qe (Json.str "No explanation provided.")

/-- One step of the quiz sanitation map in analyzeLectureContent
(src/services/geminiService.ts): read the four fields of the quiz element
with JavaScript property-read semantics (`jsMember`), so a null element
makes the callback throw a TypeError, as `q.question` does in the source;
on success build the sanitized record. -/
def sanitizeQuiz (q : Json) : Except Unit SanQuiz :=
  match jsMember q "question" with
  | Except.error e => Except.error e
  | Except.ok qq =>
      match jsMember q "options" with
      | Except.error e => Except.error e
      | Except.ok qo =>
          match jsMember q "correctAnswerIndex" with
          | Except.error e => Except.error e
          | Except.ok qc =>
              match jsMember q "explanation" with
              | Except.error e => Except.error e
              | Except.ok qe => Except.ok (buildSanQuiz qq qo qc qe)

/-- The runtime length of an options value (always an array after the map). -/
def optionsLength (j : Json) : Nat :=
  match j with
  | Json.arr l => l.length
  | _ => 0

/-- The map of the sanitation callback over the parsed quizzes array:
elements are processed left to right and the first thrown error aborts the
whole map, as `Array.prototype.map` does. -/
def sanitizeMap : List Json → Except Unit (List SanQuiz)
  | [] => Except.ok []
  | q :: qs =>
      match sanitizeQuiz q with
      | Except.error e => Except.error e
      | Except.ok r =>
          match sanitizeMap qs with
          | Except.error e => Except.error e
          | Except.ok rs => Except.ok (r :: rs)

/-- The quiz sanitation in analyzeLectureContent: map each parsed quiz
element through the sanitation callback, then filter out records with an
empty options array; an error thrown by the callback propagates. -/
def sanitizeQuizzes (qs : List Json) : Except Unit (List SanQuiz) :=
  match sanitizeMap qs with
  | Except.error e => Except.error e
  | Except.ok mapped =>
      Except.ok (mapped.filter (fun q => 0 < optionsLength q.options))

/-- The error path of the sanitation callback is preserved: a null quiz
element throws, as reading `q.question` on null does in the source. -/
theorem sanitizeQuiz_null : sanitizeQuiz Json.null = Except.error () := rfl

theorem sanitizeQuiz_ok (q : Json) (hq : q ≠ Json.null) :
    sanitizeQuiz q = Except.ok (buildSanQuiz (jget q "question") (jget q "options")
      (jget q "correctAnswerIndex") (jget q "explanation")) := by
  have hmem : ∀ k, jsMember q k = Except.ok (jget q k) := by
    intro k
    cases q with
    | null => exact absurd rfl hq
    | bool b => rfl
    | num s => rfl
    | str s => rfl
    | arr l => rfl
    | obj f => rfl
  simp [sanitizeQuiz, hmem]

theorem sanitizeMap_ok (qs : List Json) (hnn : ∀ q ∈ qs, q ≠ Json.null) :
    sanitizeMap qs = Except.ok (qs.map (fun q =>
      buildSanQuiz (jget q "question") (jget q "options")
        (jget q "correctAnswerIndex") (jget q "explanation"))) := by
  induction qs with
  | nil => rfl
  | cons q rest ih =>
      rw [sanitizeMap, sanitizeQuiz_ok q (hnn q (List.mem_cons_self q rest)),
        ih (fun p hp => hnn p (List.mem_cons_of_mem q hp))]
      rfl

theorem buildSanQuiz_options_pos (qq qo qc qe : Option Json) :
    0 < optionsLength (buildSanQuiz qq qo qc qe).options := by
  simp only [buildSanQuiz]
  cases qo with
  | none => simp [optionsLength, placeholderOptions]
  | some v =>
      cases v with
      | arr l =>
          dsimp only
          by_cases h2 : 2 ≤ l.length
          · rw [if_pos h2]; simp only [optionsLength]; omega
          · rw [if_neg h2]; simp [optionsLength, placeholderOptions]
      | null => simp [optionsLength, placeholderOptions]
      | bool b => simp [optionsLength, placeholderOptions]
      | num s => simp [optionsLength, placeholderOptions]
      | str s => simp [optionsLength, placeholderOptions]
      | obj f => simp [optionsLength, placeholderOptions]

theorem sanitizeQuizzes_ok (qs : List Json) (hnn : ∀ q ∈ qs, q ≠ Json.null) :
    sanitizeQuizzes qs = Except.ok (qs.map (fun q =>
      buildSanQuiz (jget q "question") (jget q "options")
        (jget q "correctAnswerIndex") (jget q "explanation"))) := by
  rw [sanitizeQuizzes, sanitizeMap_ok qs hnn]
  dsimp only
  congr 1
  apply List.filter_eq_self.mpr
  intro r hr
  obtain ⟨q0, _, rfl⟩ := List.mem_map.mp hr
  simpa using buildSanQuiz_options_pos _ _ _ _

/-- C6 counterexample: a quiz whose options field is an array of two
numbers — a list of two entries but not of strings.  The sanitation keeps
it unchanged instead of replacing it with the two-option placeholder:
only `Array.isArray` and the length are checked, not the element types. -/
theorem sanitize_options_not_strings_counterexample :
    (sanitizeQuizzes [Json.obj [("question", Json.str "Q"),
        ("options", Json.arr [Json.num "1", Json.num "2"]),
        ("correctAnswerIndex", Json.num "0"),
        ("explanation", Json.str "E")]]).map (fun out => out.map SanQuiz.options) =
      Except.ok [Json.arr [Json.num "1", Json.num "2"]] ∧
    Json.arr [Json.num "1", Json.num "2"] ≠ placeholderOptions :=
  ⟨rfl, by simp [placeholderOptions]⟩

/-- C6 (amended): for every list of parsed quiz values none of which is
null — in particular every list of quiz objects, the claim's scope — the
sanitation throws nothing and its output has the same length (no quiz
question is dropped); every quiz whose options field is missing or not an
array of at least 2 entries (element types are not checked) gets the
two-option placeholder, and every quiz whose explanation is missing gets
the placeholder string.  (A null element instead makes the map throw, see
`sanitizeQuiz_null`.) -/
theorem sanitizeQuizzes_defaults (qs : List Json)
    (hnn : ∀ q ∈ qs, q ≠ Json.null) :
    ∃ out, sanitizeQuizzes qs = Except.ok out ∧
      out.length = qs.length ∧
      ∀ i (hi : i < qs.length), ∃ r, out[i]? = some r ∧
        ((∀ l, jget qs[i] "options" = some (Json.arr l) → l.length < 2) →
          r.options = placeholderOptions) ∧
        (jget qs[i] "explanation" = none →
          r.explanation = Json.str "No explanation provided.") := by
  refine ⟨_, sanitizeQuizzes_ok qs hnn, by rw [List.length_map], ?_⟩
  intro i hi
  refine ⟨buildSanQuiz (jget qs[i] "question") (jget qs[i] "options")
    (jget qs[i] "correctAnswerIndex") (jget qs[i] "explanation"), ?_, ?_, ?_⟩
  · rw [List.getElem?_map, List.getElem?_eq_getElem hi]
    rfl
  · intro hopt
    simp only [buildSanQuiz]
    cases hjo : jget qs[i] "options" with
    | none => rfl
    | some v =>
        cases v with
        | arr l =>
            have hlt := hopt l hjo
            dsimp only
            rw [if_neg (by omega)]
        | null => rfl
        | bool b => rfl
        | num s => rfl
        | str s => rfl
        | obj f => rfl
  · intro hexp
    simp only [buildSanQuiz, hexp, jsOr]

/-- Witness for the C6 theorem: a quiz object with neither options nor
explanation is sanitized without an error, gets both placeholders and is
not dropped. -/
theorem sanitizeQuizzes_defaults_witness :
    ∃ out, sanitizeQuizzes [Json.obj [("question", Json.str "Q")]] = Except.ok out ∧
      out.length = [Json.obj [("question", Json.str "Q")]].length ∧
      ∀ i (hi : i < [Json.obj [("question", Json.str "Q")]].length), ∃ r,
        out[i]? = some r ∧
        ((∀ l, jget [Json.obj [("question", Json.str "Q")]][i] "options" =
            some (Json.arr l) → l.length < 2) → r.options = placeholderOptions) ∧
        (jget [Json.obj [("question", Json.str "Q")]][i] "explanation" = none →
          r.explanation = Json.str "No explanation provided.") :=
  sanitizeQuizzes_defaults [Json.obj [("question", Json.str "Q")]]
    (by
      intro q hq
      rw [List.mem_singleton] at hq
      subst hq
      exact fun hcon => Json.noConfusion hcon)

/-- Model of the quiz view's validation filter (`validQuizzes` in the quiz
view component): keep a quiz when it is truthy, its question is truthy, and
its options field is an array with at least 2 entries (the `Array.isArray`
test and the length test combined in one match).  A missing quizzes prop
defaults to the empty list. -/
def validQuizzes (quizzes : Option (List Json)) : List Json :=
  (quizzes.getD []).filter (fun q =>
    truthy q && truthyOpt (jget q "question") &&
      (match jget q "options" with
       | some (Json.arr l) => decide (2 ≤ l.length)
       | _ => false))

/-- C2: a quiz object whose options list has fewer than 2 entries never
appears in the quiz view's validated list. -/
theorem validQuizzes_excludes_short (qs : Option (List Json)) (q : Json)
    (l : List Json)
    (hopt : jget q "options" = some (Json.arr l)) (hlen : l.length < 2) :
    q ∉ validQuizzes qs := by
  intro hmem
  have hp := (List.mem_filter.mp hmem).2
  simp only [hopt, Bool.and_eq_true, decide_eq_true_eq] at hp
  omega

/-- Witness for the C2 theorem: a one-option quiz is filtered out. -/
theorem validQuizzes_excludes_short_witness :
    Json.obj [("question", Json.str "Q"), ("options", Json.arr [Json.str "A"])] ∉
      validQuizzes (some [Json.obj [("question", Json.str "Q"),
        ("options", Json.arr [Json.str "A"])]]) :=
  validQuizzes_excludes_short _ _ [Json.str "A"] rfl (by decide)

/-- The value of a quiz's `correctAnswerIndex` as seen by the quiz view,
restricted to the cases the model represents exactly: a number carrying an
integer value, a string that `Number(...)` converts to an integer, or any
value whose conversion is NaN.  Math.floor is the identity on the integer
values modelled; non-integer floats are outside the model. -/
inductive IdxVal where
  | intNum (n : Int)
  | intStr (n : Int)
  | nanVal
  deriving Repr, DecidableEq

/-- `Number(v)` followed by `Math.floor` on the modelled values; `none`
models NaN. -/
def toNumberFloor : IdxVal → Option Int
  | IdxVal.intNum n => some n
  | IdxVal.intStr n => some n
  | IdxVal.nanVal => none

/-- Model of the quiz view's getSafeCorrectIndex: coerce with Number, map
NaN to 0, floor, then clamp between 0 and options.length − 1 (the
subtraction is over the integers, as in JavaScript, so an empty options
list would give −1). -/
def getSafeCorrectIndex (v : IdxVal) (optionsLength : Nat) : Int :=
  let index : Int :=
    match toNumberFloor v with
    | none => 0
    | some n => n
  min (max 0 index) ((optionsLength : Int) - 1)

/-- C1 counterexample: a parsed quiz with four options and a numeric
correctAnswerIndex of 7.  The pipeline's sanitation keeps the value 7 (it
replaces only values whose runtime type is not number), so the field
delivered by the analysis pipeline is not clamped into [0, 3]. -/
theorem pipeline_index_not_clamped :
    (sanitizeQuizzes [Json.obj [("question", Json.str "Q"),
        ("options", Json.arr [Json.str "A", Json.str "B", Json.str "C", Json.str "D"]),
        ("correctAnswerIndex", Json.num "7"),
        ("explanation", Json.str "E")]]).map
        (fun out => out.map SanQuiz.correctAnswerIndex) =
      Except.ok [Json.num "7"] ∧ ¬ ((7 : Int) ≤ 4 - 1) :=
  ⟨rfl, by omega⟩

/-- C1 (amended): the analysis pipeline only defaults a correctAnswerIndex
whose runtime type is not number to 0 and does not clamp numeric values;
the clamp into range is applied by the quiz view's getSafeCorrectIndex,
which for every quiz with at least one option returns an integer in
[0, options.length − 1], with NaN-producing values coerced to 0. -/
theorem getSafeCorrectIndex_clamped (v : IdxVal) (len : Nat) (h : 1 ≤ len) :
    0 ≤ getSafeCorrectIndex v len ∧ getSafeCorrectIndex v len ≤ (len : Int) - 1 ∧
      (toNumberFloor v = none → getSafeCorrectIndex v len = 0) := by
  unfold getSafeCorrectIndex
  have hlen : (1 : Int) ≤ (len : Int) := by exact_mod_cast h
  cases hv : toNumberFloor v with
  | none =>
      refine ⟨?_, ?_, fun _ => ?_⟩
      · exact le_min (le_max_left 0 0) (by omega)
      · exact min_le_right _ _
      · rw [min_eq_left (by simp; omega)]
        simp
  | some n =>
      refine ⟨?_, ?_, fun hcon => ?_⟩
      · exact le_min (le_max_left 0 n) (by omega)
      · exact min_le_right _ _
      · exact absurd hcon (by simp)

/-- Witness for the C1 theorem at the counterexample's raw value 7 with
four options: the quiz view's index is clamped into [0, 3]. -/
theorem getSafeCorrectIndex_clamped_witness :
    0 ≤ getSafeCorrectIndex (IdxVal.intNum 7) 4 ∧
      getSafeCorrectIndex (IdxVal.intNum 7)  4 ≤ (4 : Int) - 1 ∧
      (toNumberFloor (IdxVal.intNum 7) = none →
        getSafeCorrectIndex (IdxVal.intNum 7) 4 = 0) :=
  getSafeCorrectIndex_clamped (IdxVal.intNum 7) 4 (by omega)

/-! Model of the subject/material data model (the types module) and of
handleMoveMaterial (src/App.tsx). -/

/-- A flashcard (front/back pair). -/
structure Flashcard where
  front : String
  back : String
  deriving Repr, DecidableEq

/-- A quiz question of the analysis, as statically typed. -/
structure QuizQuestion where
  question : String
  options : List String
  correctAnswerIndex : Int
  explanation : String
  deriving Repr, DecidableEq

/-- A full analysis produced for one uploaded material. -/
structure LectureAnalysis where
  title : String
  summary : String
  keyPoints : List String
  flashcards : List Flashcard
  quizzes : List QuizQuestion
  deriving Repr, DecidableEq

/-- The source type of a saved material (file upload or URL). -/
inductive SourceType where
  | file
  | url
  deriving Repr, DecidableEq

/-- A saved material: one processed document and its study guide.  The
creation Date is modelled as an integer timestamp. -/
structure SavedMaterial where
  id : String
  title : String
  type : SourceType
  date : Int
  analysis : LectureAnalysis
  originalSource : String
  deriving Repr, DecidableEq

/-- A subject folder holding an ordered list of saved materials. -/
structure Subject where
  id : String
  name : String
  materials : List SavedMaterial
  color : String
  deriving Repr, DecidableEq

/-- All material ids across the subjects, in order. -/
def allMaterialIds (subjects : List Subject) : List String :=
  (subjects.map (fun s => s.materials.map (fun m => m.id))).flatten

/-- Total number of materials across all subjects. -/
def totalMaterials (subjects : List Subject) : Nat :=
  (subjects.map (fun s => s.materials.length)).sum

/-- The source-lookup loop of handleMoveMaterial: the first subject (in
order) containing a material with the given id, together with that
material (the first with the id inside that subject). -/
def findSource : List Subject → String → Option (SavedMaterial × String)
  | [], _ => none
  | sub :: rest, materialId =>
      match sub.materials.find? (fun m => m.id == materialId) with
      | some m => some (m, sub.id)
      | none => findSource rest materialId

/-- Model of the state-update function of handleMoveMaterial
(src/App.tsx): find the material and its source subject; when the material
is absent or already lives in the target subject, return the state
unchanged; otherwise remove it from the source subject's list and prepend
it to the target subject's list. -/
def moveMaterial (prev : List Subject) (materialId targetSubjectId : String) :
    List Subject :=
  match findSource prev materialId with
  | none => prev
  | some (materialToMove, sourceSubjectId) =>
      if sourceSubjectId = targetSubjectId then prev
      else
        prev.map (fun sub =>
          if sub.id = sourceSubjectId then
            { sub with materials := sub.materials.filter (fun m => !(m.id == materialId)) }
          else if sub.id = targetSubjectId then
            { sub with materials := materialToMove :: sub.materials }
          else sub)

theorem nodup_map_inj {α β : Type} (f : α → β) (l : List α)
    (h : (l.map f).Nodup) : ∀ a ∈ l, ∀ b ∈ l, f a = f b → a = b := by
  induction l with
  | nil => intro a ha; simp at ha
  | cons x t ih =>
      intro a ha b hb hf
      simp only [List.map_cons, List.nodup_cons] at h
      obtain ⟨hx, ht⟩ := h
      rcases List.mem_cons.mp ha with rfl | ha2
      · rcases List.mem_cons.mp hb with rfl | hb2
        · rfl
        · exact absurd (by rw [hf]; exact List.mem_map_of_mem f hb2) hx
      · rcases List.mem_cons.mp hb with rfl | hb2
        · exact absurd (by rw [← hf]; exact List.mem_map_of_mem f ha2) hx
        · exact ih ht a ha2 b hb2 hf

theorem find?_eq_of_nodup_map {α : Type} (f : α → String) (l : List α) (x : α)
    (h : (l.map f).Nodup) (hx : x ∈ l) :
    l.find? (fun y => f y == f x) = some x := by
  induction l with
  | nil => simp at hx
  | cons a t ih =>
      simp only [List.map_cons, List.nodup_cons] at h
      by_cases hpa : f a = f x
      · rcases List.mem_cons.mp hx with rfl | hx2
        · rw [List.find?_cons_of_pos _ (by simp)]
        · exact absurd (by rw [hpa]; exact List.mem_map_of_mem f hx2) h.1
      · rcases List.mem_cons.mp hx with rfl | hx2
        · exact absurd rfl hpa
        · rw [List.find?_cons_of_neg _ (by simpa using hpa)]
          exact ih h.2 hx2

theorem mem_allMaterialIds (subjects : List Subject) (s : Subject)
    (m : SavedMaterial) (hs : s ∈ subjects) (hm : m ∈ s.materials) :
    m.id ∈ allMaterialIds subjects := by
  simp only [allMaterialIds, List.mem_flatten]
  exact ⟨s.materials.map (fun m2 => m2.id), List.mem_map_of_mem _ hs,
    List.mem_map_of_mem _ hm⟩

theorem allMaterialIds_cons (sub : Subject) (rest : List Subject) :
    allMaterialIds (sub :: rest) =
      sub.materials.map (fun m => m.id) ++ allMaterialIds rest := by
  simp [allMaterialIds]

theorem materials_ids_nodup (prev : List Subject)
    (h : (allMaterialIds prev).Nodup) (s : Subject) (hs : s ∈ prev) :
    (s.materials.map (fun m => m.id)).Nodup := by
  induction prev with
  | nil => simp at hs
  | cons sub rest ih =>
      rw [allMaterialIds_cons] at h
      obtain ⟨h1, h2, _⟩ := List.nodup_append.mp h
      rcases List.mem_cons.mp hs with rfl | hs2
      · exact h1
      · exact ih h2 hs2

theorem shared_material_eq_id : ∀ (prev : List Subject),
    (allMaterialIds prev).Nodup →
    ∀ s1 s2 m, s1 ∈ prev → s2 ∈ prev → m ∈ s1.materials → m ∈ s2.materials →
    s1.id = s2.id := by
  intro prev
  induction prev with
  | nil => intro _ s1 s2 m h; simp at h
  | cons x rest ih =>
      intro hnd s1 s2 m hs1 hs2 hm1 hm2
      rw [allMaterialIds_cons] at hnd
      obtain ⟨_, hnd2, hdisj⟩ := List.nodup_append.mp hnd
      rcases List.mem_cons.mp hs1 with rfl | hs1r
      · rcases List.mem_cons.mp hs2 with rfl | hs2r
        · rfl
        · exact absurd (mem_allMaterialIds rest s2 m hs2r hm2)
            (hdisj (List.mem_map_of_mem _ hm1))
      · rcases List.mem_cons.mp hs2 with rfl | hs2r
        · exact absurd (mem_allMaterialIds rest s1 m hs1r hm1)
            (hdisj (List.mem_map_of_mem _ hm2))
        · exact ih hnd2 s1 s2 m hs1r hs2r hm1 hm2

theorem findSource_eq (prev : List Subject) (mat : SavedMaterial) (src : Subject)
    (hmatnd : (allMaterialIds prev).Nodup)
    (hsrc : src ∈ prev) (hmem : mat ∈ src.materials) :
    findSource prev mat.id = some (mat, src.id) := by
  induction prev with
  | nil => simp at hsrc
  | cons sub rest ih =>
      rw [allMaterialIds_cons] at hmatnd
      obtain ⟨hnd1, hnd2, hdisj⟩ := List.nodup_append.mp hmatnd
      rcases List.mem_cons.mp hsrc with rfl | hsrc2
      · rw [findSource, find?_eq_of_nodup_map (fun m => m.id) _ mat hnd1 hmem]
      · have hnot : sub.materials.find? (fun m => m.id == mat.id) = none := by
          rw [List.find?_eq_none]
          intro y hy hbeq
          have hyid : y.id = mat.id := by simpa using hbeq
          have h1 : y.id ∈ sub.materials.map (fun m => m.id) :=
            List.mem_map_of_mem _ hy
          have h2 : mat.id ∈ allMaterialIds rest :=
            mem_allMaterialIds rest src mat hsrc2 hmem
          rw [hyid] at h1
          exact hdisj h1 h2
        rw [findSource, hnot]
        exact ih hnd2 hsrc2

theorem filter_ne_eq_erase : ∀ (l : List SavedMaterial) (x : SavedMaterial),
    (l.map (fun m => m.id)).Nodup → x ∈ l →
    l.filter (fun m => !(m.id == x.id)) = l.erase x := by
  intro l
  induction l with
  | nil => intro x _ hx; simp at hx
  | cons a t ih =>
      intro x hnd hx
      simp only [List.map_cons, List.nodup_cons] at hnd
      by_cases hax : a = x
      · subst hax
        rw [List.filter_cons, if_neg (by simp), List.erase_cons_head]
        apply List.filter_eq_self.mpr
        intro b hb
        simp only [Bool.not_eq_eq_eq_not, Bool.not_true, beq_eq_false_iff_ne, ne_eq,
          decide_not]
        intro hbid
        exact hnd.1 (by rw [← hbid]; exact List.mem_map_of_mem _ hb)
      · have hxt : x ∈ t := by
          rcases List.mem_cons.mp hx with rfl | hx2
          · exact absurd rfl hax
          · exact hx2
        have hid : ¬ a.id = x.id := by
          intro hcon
          exact hnd.1 (by rw [hcon]; exact List.mem_map_of_mem _ hxt)
        rw [List.filter_cons, if_pos (by simpa using hid),
          List.erase_cons_tail (by simpa using hax), ih x hnd.2 hxt]

/-- C7: in any subjects state with globally unique subject ids and material
ids, for a material `mat` owned by subject `src`: moving `mat` to `src`
itself leaves the state unchanged; moving it to a different existing
subject `tgt` keeps the list of subjects (same length, same ids), removes
`mat` from the source's list, prepends it to the target's list exactly once
(`mat` was not there before), and leaves every other subject untouched. -/
theorem moveMaterial_spec (prev : List Subject) (mat : SavedMaterial)
    (src tgt : Subject)
    (hsubnd : (prev.map Subject.id).Nodup)
    (hmatnd : (allMaterialIds prev).Nodup)
    (hsrc : src ∈ prev) (hmem : mat ∈ src.materials) :
    moveMaterial prev mat.id src.id = prev ∧
    (tgt ∈ prev → tgt.id ≠ src.id →
      mat ∉ tgt.materials ∧
      (moveMaterial prev mat.id tgt.id).length = prev.length ∧
      (∀ i (hi : i < prev.length) (hi2 : i < (moveMaterial prev mat.id tgt.id).length),
        (prev[i].id = src.id →
          (moveMaterial prev mat.id tgt.id)[i].materials = src.materials.erase mat) ∧
        (prev[i].id = tgt.id →
          (moveMaterial prev mat.id tgt.id)[i].materials = mat :: tgt.materials) ∧
        (prev[i].id ≠ src.id → prev[i].id ≠ tgt.id →
          (moveMaterial prev mat.id tgt.id)[i] = prev[i]) ∧
        (moveMaterial prev mat.id tgt.id)[i].id = prev[i].id)) := by
  have hfind : findSource prev mat.id = some (mat, src.id) :=
    findSource_eq prev mat src hmatnd hsrc hmem
  constructor
  · simp only [moveMaterial, hfind]
    simp
  · intro htgt hne
    have hmove : moveMaterial prev mat.id tgt.id =
        prev.map (fun sub =>
          if sub.id = src.id then
            { sub with materials := sub.materials.filter (fun m => !(m.id == mat.id)) }
          else if sub.id = tgt.id then
            { sub with materials := mat :: sub.materials }
          else sub) := by
      simp only [moveMaterial, hfind]
      rw [if_neg (fun hcon => hne hcon.symm)]
    refine ⟨?_, by rw [hmove, List.length_map], ?_⟩
    · intro hcon
      exact hne (shared_material_eq_id prev hmatnd tgt src mat htgt hsrc hcon hmem)
    · intro i hi hi2
      have hpi : prev[i] ∈ prev := List.getElem_mem hi
      have hRi : (moveMaterial prev mat.id tgt.id)[i] =
          (if prev[i].id = src.id then
            { prev[i] with
              materials := prev[i].materials.filter (fun m => !(m.id == mat.id)) }
          else if prev[i].id = tgt.id then
            { prev[i] with materials := mat :: prev[i].materials }
          else prev[i]) := by
        have h1 : (moveMaterial prev mat.id tgt.id)[i]? =
            some (if prev[i].id = src.id then
              { prev[i] with
                materials := prev[i].materials.filter (fun m => !(m.id == mat.id)) }
            else if prev[i].id = tgt.id then
              { prev[i] with materials := mat :: prev[i].materials }
            else prev[i]) := by
          rw [hmove, List.getElem?_map, List.getElem?_eq_getElem hi]
          rfl
        have h2 : (moveMaterial prev mat.id tgt.id)[i]? =
            some ((moveMaterial prev mat.id tgt.id)[i]) :=
          List.getElem?_eq_getElem hi2
        rw [h2] at h1
        exact Option.some.inj h1
      refine ⟨?_, ?_, ?_, ?_⟩
      · intro hid
        have hps : prev[i] = src :=
          nodup_map_inj Subject.id prev hsubnd _ hpi src hsrc hid
        rw [hRi, if_pos hid, hps]
        exact filter_ne_eq_erase src.materials mat
          (materials_ids_nodup prev hmatnd src hsrc) hmem
      · intro hid
        have hpt : prev[i] = tgt :=
          nodup_map_inj Subject.id prev hsubnd _ hpi tgt htgt hid
        rw [hRi, if_neg (by rw [hid]; exact hne), if_pos hid, hpt]
      · intro h1 h2
        rw [hRi, if_neg h1, if_neg h2]
      · rw [hRi]
        by_cases h1 : prev[i].id = src.id
        · rw [if_pos h1]
        · rw [if_neg h1]
          by_cases h2 : prev[i].id = tgt.id
          · rw [if_pos h2]
          · rw [if_neg h2]

/-- C10: moving a material to a target id that matches no subject, from a
state with unique subject and material ids, removes the material from its
source subject and adds it nowhere: the state keeps its length, the total
number of materials drops by exactly one (the move is lossy rather than
rejected), and every subject other than the source is unchanged. -/
theorem moveMaterial_lossy (prev : List Subject) (mat : SavedMaterial)
    (src : Subject) (tgtId : String)
    (hsubnd : (prev.map Subject.id).Nodup)
    (hmatnd : (allMaterialIds prev).Nodup)
    (hsrc : src ∈ prev) (hmem : mat ∈ src.materials)
    (hmiss : ∀ sub ∈ prev, sub.id ≠ tgtId) :
    (moveMaterial prev mat.id tgtId).length = prev.length ∧
    totalMaterials (moveMaterial prev mat.id tgtId) + 1 = totalMaterials prev ∧
    (∀ i (hi : i < prev.length) (hi2 : i < (moveMaterial prev mat.id tgtId).length),
      (prev[i].id = src.id →
        (moveMaterial prev mat.id tgtId)[i].materials = src.materials.erase mat) ∧
      (prev[i].id ≠ src.id → (moveMaterial prev mat.id tgtId)[i] = prev[i])) := by
  have hfind : findSource prev mat.id = some (mat, src.id) :=
    findSource_eq prev mat src hmatnd hsrc hmem
  have hne : ¬ src.id = tgtId := hmiss src hsrc
  have hmove : moveMaterial prev mat.id tgtId =
      prev.map (fun sub =>
        if sub.id = src.id then
          { sub with materials := sub.materials.filter (fun m => !(m.id == mat.id)) }
        else if sub.id = tgtId then
          { sub with materials := mat :: sub.materials }
        else sub) := by
    simp only [moveMaterial, hfind]
    rw [if_neg hne]
  have herase : src.materials.filter (fun m => !(m.id == mat.id)) =
      src.materials.erase mat :=
    filter_ne_eq_erase src.materials mat
      (materials_ids_nodup prev hmatnd src hsrc) hmem
  refine ⟨by rw [hmove, List.length_map], ?_, ?_⟩
  · obtain ⟨l1, l2, rfl⟩ := List.append_of_mem hsrc
    have hnd := hsubnd
    rw [List.map_append, List.nodup_append, List.map_cons, List.nodup_cons] at hnd
    obtain ⟨hnd1, ⟨hhead, hnd2⟩, hdisj⟩ := hnd
    have hl1 : ∀ sub ∈ l1, sub.id ≠ src.id := by
      intro sub hsub hcon
      exact hdisj (by rw [← hcon] at *; exact List.mem_map_of_mem _ hsub)
        (List.mem_cons_self _ _)
    have hl2 : ∀ sub ∈ l2, sub.id ≠ src.id := by
      intro sub hsub hcon
      exact hhead (by rw [← hcon]; exact List.mem_map_of_mem _ hsub)
    rw [hmove, List.map_append, List.map_cons]
    have hm1 : l1.map (fun sub =>
        if sub.id = src.id then
          { sub with materials := sub.materials.filter (fun m => !(m.id == mat.id)) }
        else if sub.id = tgtId then
          { sub with materials := mat :: sub.materials }
        else sub) = l1.map id := by
      apply List.map_congr_left
      intro sub hsub
      rw [if_neg (hl1 sub hsub), if_neg (hmiss sub (by simp [hsub]))]
      rfl
    have hm2 : l2.map (fun sub =>
        if sub.id = src.id then
          { sub with materials := sub.materials.filter (fun m => !(m.id == mat.id)) }
        else if sub.id = tgtId then
          { sub with materials := mat :: sub.materials }
        else sub) = l2.map id := by
      apply List.map_congr_left
      intro sub hsub
      rw [if_neg (hl2 sub hsub), if_neg (hmiss sub (by simp [hsub]))]
      rfl
    rw [hm1, hm2, List.map_id, List.map_id, if_pos rfl]
    simp only [totalMaterials, List.map_append, List.map_cons, List.sum_append,
      List.sum_cons]
    have hlen : (src.materials.filter (fun m => !(m.id == mat.id))).length =
        src.materials.length - 1 := by
      rw [herase]
      exact List.length_erase_of_mem hmem
    have hpos : 0 < src.materials.length :=
      List.length_pos.mpr (List.ne_nil_of_mem hmem)
    omega
  · intro i hi hi2
    have hpi : prev[i] ∈ prev := List.getElem_mem hi
    have hRi : (moveMaterial prev mat.id tgtId)[i] =
        (if prev[i].id = src.id then
          { prev[i] with
            materials := prev[i].materials.filter (fun m => !(m.id == mat.id)) }
        else if prev[i].id = tgtId then
          { prev[i] with materials := mat :: prev[i].materials }
        else prev[i]) := by
      have h1 : (moveMaterial prev mat.id tgtId)[i]? =
          some (if prev[i].id = src.id then
            { prev[i] with
              materials := prev[i].materials.filter (fun m => !(m.id == mat.id)) }
          else if prev[i].id = tgtId then
            { prev[i] with materials := mat :: prev[i].materials }
          else prev[i]) := by
        rw [hmove, List.getElem?_map, List.getElem?_eq_getElem hi]
        rfl
      have h2 : (moveMaterial prev mat.id tgtId)[i]? =
          some ((moveMaterial prev mat.id tgtId)[i]) :=
        List.getElem?_eq_getElem hi2
      rw [h2] at h1
      exact Option.some.inj h1
    constructor
    · intro hid
      have hps : prev[i] = src :=
        nodup_map_inj Subject.id prev hsubnd _ hpi src hsrc hid
      rw [hRi, if_pos hid, hps]
      exact filter_ne_eq_erase src.materials mat
        (materials_ids_nodup prev hmatnd src hsrc) hmem
    · intro hid
      rw [hRi, if_neg hid, if_neg (hmiss prev[i] hpi)]

/-- Concrete analysis used by the material-move witnesses. -/
def emptyAnalysis : LectureAnalysis := ⟨"t", "s", [], [], []⟩

/-- Concrete material used by the material-move witnesses. -/
def mat1 : SavedMaterial := ⟨"m1", "Doc", SourceType.file, 0, emptyAnalysis, "doc.pdf"⟩

/-- Concrete subject owning `mat1`. -/
def subA : Subject := ⟨"A", "Math", [mat1], "blue"⟩

/-- Concrete empty subject. -/
def subB : Subject := ⟨"B", "Bio", [], "green"⟩

/-- Witness for the C7 theorem on a two-subject state. -/
theorem moveMaterial_spec_witness :
    moveMaterial [subA, subB] mat1.id subA.id = [subA, subB] ∧
      (moveMaterial [subA, subB] mat1.id subB.id).length = [subA, subB].length :=
  ⟨(moveMaterial_spec [subA, subB] mat1 subA subB (by decide) (by decide)
      (by decide) (by decide)).1,
   ((moveMaterial_spec [subA, subB] mat1 subA subB (by decide) (by decide)
      (by decide) (by decide)).2 (by decide) (by decide)).2.1⟩

/-- Witness for the C10 theorem: moving to the unknown subject id Z. -/
theorem moveMaterial_lossy_witness :
    (moveMaterial [subA] mat1.id "Z").length = [subA].length ∧
      totalMaterials (moveMaterial [subA] mat1.id "Z") + 1 = totalMaterials [subA] :=
  ⟨(moveMaterial_lossy [subA] mat1 subA "Z" (by decide) (by decide) (by decide)
      (by decide) (by decide)).1,
   (moveMaterial_lossy [subA] mat1 subA "Z" (by decide) (by decide) (by decide)
      (by decide) (by decide)).2.1⟩

/-! Model of the retry policy of analyzeLectureContent. -/

/-- The fixed attempt bound of analyzeLectureContent. -/
def MAX_RETRIES : Nat := 2

/-- Model of the retry loop of analyzeLectureContent
(src/services/geminiService.ts), starting at a given attempt number.  The
body of one attempt — the network request, the parse cascade and the
"Analysis Failed" title check — is abstracted by `oracle`, which gives the
outcome each attempt would have: an analysis value, or a thrown error and
its message.  On success the value is returned; on failure the loop
retries, except that the failure of the last attempt is rethrown with its
message (or a default reason when the message is empty, modelling
`error.message || "Failed to analyze content"`).  The throw after the loop
is unreachable. -/
def analyzeLoop (oracle : Nat → Except String LectureAnalysis) :
    Nat → Except String LectureAnalysis
  | attempt =>
      if _h : attempt ≤ MAX_RETRIES then
        match oracle attempt with
        | Except.ok a => Except.ok a
        | Except.error e =>
            if attempt = MAX_RETRIES then
              Except.error (if e = "" then "Failed to analyze content" else e)
            else analyzeLoop oracle (attempt + 1)
      else Except.error "Analysis failed"
termination_by attempt => MAX_RETRIES + 1 - attempt
decreasing_by
  simp only [MAX_RETRIES] at *
  omega

/-- Model of analyzeLectureContent's control flow: the retry loop starting
at attempt 1. -/
def analyzeLectureContent (oracle : Nat → Except String LectureAnalysis) :
    Except String LectureAnalysis :=
  analyzeLoop oracle 1

theorem analyzeLoop_unfold (oracle : Nat → Except String LectureAnalysis) :
    analyzeLectureContent oracle =
      match oracle 1 with
      | Except.ok a => Except.ok a
      | Except.error _ =>
          match oracle 2 with
          | Except.ok a => Except.ok a
          | Except.error e2 =>
              Except.error (if e2 = "" then "Failed to analyze content" else e2) := by
  have e1 : analyzeLectureContent oracle =
      match oracle 1 with
      | Except.ok a => Except.ok a
      | Except.error _ => analyzeLoop oracle 2 := by
    unfold analyzeLectureContent
    rw [analyzeLoop, dif_pos (by norm_num [MAX_RETRIES])]
    cases oracle 1 with
    | ok a => rfl
    | error e =>
        dsimp only
        rw [if_neg (by norm_num [MAX_RETRIES])]
  have e2 : analyzeLoop oracle 2 =
      match oracle 2 with
      | Except.ok a => Except.ok a
      | Except.error e2 =>
          Except.error (if e2 = "" then "Failed to analyze content" else e2) := by
    rw [analyzeLoop, dif_pos (by norm_num [MAX_RETRIES])]
    cases oracle 2 with
    | ok a => rfl
    | error e =>
        dsimp only
        rw [if_pos (by norm_num [MAX_RETRIES])]
  rw [e1]
  cases oracle 1 with
  | ok a => rfl
  | error e =>
      dsimp only
      rw [e2]

/-- C8: the analysis call makes at most MAX_RETRIES = 2 attempts — its
outcome depends only on the outcomes of attempts 1 and 2; a successful
first attempt returns its value, a failed first attempt is retried, and
when both attempts fail the final error propagates to the caller as an
exception carrying its human-readable message (or a default reason when
the message is empty) rather than being swallowed. -/
theorem analyze_retry_spec (oracle : Nat → Except String LectureAnalysis) :
    (∀ a, oracle 1 = Except.ok a → analyzeLectureContent oracle = Except.ok a) ∧
    (∀ e a, oracle 1 = Except.error e → oracle 2 = Except.ok a →
      analyzeLectureContent oracle = Except.ok a) ∧
    (∀ e1 e2, oracle 1 = Except.error e1 → oracle 2 = Except.error e2 →
      analyzeLectureContent oracle =
        Except.error (if e2 = "" then "Failed to analyze content" else e2)) ∧
    (∀ oracle2 : Nat → Except String LectureAnalysis,
      oracle 1 = oracle2 1 → oracle 2 = oracle2 2 →
      analyzeLectureContent oracle = analyzeLectureContent oracle2) := by
  refine ⟨?_, ?_, ?_, ?_⟩
  · intro a h1
    rw [analyzeLoop_unfold, h1]
  · intro e a h1 h2
    rw [analyzeLoop_unfold, h1, h2]
  · intro e1 e2 h1 h2
    rw [analyzeLoop_unfold, h1, h2]
  · intro oracle2 h1 h2
    rw [analyzeLoop_unfold, analyzeLoop_unfold, h1, h2]

/-- Oracle for the retry witness: attempt 1 fails, attempt 2 succeeds. -/
def retryOracle : Nat → Except String LectureAnalysis :=
  fun n => if n = 1 then Except.error "network" else Except.ok emptyAnalysis

/-- Witness for the C8 theorem: a first failure is retried and the second
attempt's analysis is returned. -/
theorem analyze_retry_spec_witness :
    analyzeLectureContent retryOracle = Except.ok emptyAnalysis :=
  (analyze_retry_spec retryOracle).2.1 "network" emptyAnalysis rfl rfl

end StudyBuddy
